import Mathlib

/-!
Verification of the Advanced Sentiment Analysis tool (src/code.py).

Texts are modelled as `List Char`.  The external lexical resources (the NLTK
English stopword set, the WordNet lemmatizer) and the external scorers (the
VADER polarity scorer, the TextBlob subjectivity measure) are opaque injected
parameters, as the design document prescribes ("treat as an opaque injected
set of lowercase words", "treat as opaque").  Character classes model the
ASCII fragment of Python's `str.lower`, `\w` and `\s`; every concrete input
appearing below is ASCII, where the model and Python agree exactly.
-/

/-- Model of Python's whitespace class (ASCII fragment): the characters
recognised by `str.split()`, `str.strip()` and the regex class `\s`. -/
def isSpaceChar (c : Char) : Bool :=
  c = ' ' || c = '\t' || c = '\n' || c = '\r' || c = '\x0b' || c = '\x0c'

/-- Model of Python's word-character class `\w` (ASCII fragment): letters,
digits and the underscore. -/
def isWordChar (c : Char) : Bool :=
  c.isAlphanum || c = '_'

/-- Characters kept by `re.sub(r'[^\w\s]', '', text)` in `preprocess_text`:
word characters and whitespace survive, everything else is deleted
(replaced by nothing, not by a space). -/
def keepChar (c : Char) : Bool :=
  isWordChar c || isSpaceChar c

/-- Model of Python's `str.lower` on a text.  `Char.toLower` lowercases the
basic latin letters `A`–`Z`, exactly Python's behaviour on ASCII text. -/
def toLowerL (l : List Char) : List Char :=
  l.map Char.toLower

/-- A character as it can occur inside a token of cleaned text: a word
character that is fixed by lowercasing. -/
def cleanChar (c : Char) : Bool :=
  isWordChar c && (c.toLower == c)

/-- Model of Python's `str.split()` (split on runs of whitespace, no empty
tokens), with an accumulator holding the reversed current token. -/
def splitWsAux : List Char → List Char → List (List Char)
  | [], acc =>
    match acc with
    | [] => []
    | _ :: _ => [acc.reverse]
  | c :: l, acc =>
    if isSpaceChar c then
      match acc with
      | [] => splitWsAux l []
      | _ :: _ => acc.reverse :: splitWsAux l []
    else splitWsAux l (c :: acc)

/-- Model of Python's `str.split()`. -/
def splitWs (l : List Char) : List (List Char) :=
  splitWsAux l []

/-- Splitting on whitespace keeping empty segments (one segment per maximal
run between separator characters). -/
def splitKeepEmpty : List Char → List (List Char)
  | [] => [[]]
  | c :: l =>
    if isSpaceChar c then [] :: splitKeepEmpty l
    else
      match splitKeepEmpty l with
      | [] => [[c]]
      | w :: ws => (c :: w) :: ws

/-- Model of Python's `str.strip()`: remove leading and trailing whitespace. -/
def stripStr (l : List Char) : List Char :=
  ((l.dropWhile isSpaceChar).reverse.dropWhile isSpaceChar).reverse

/-- Model of Python's `str.split(' ', 1)` as used in `main`: split at the
first literal space, at most once, keeping everything after it intact. -/
def splitOnce (l : List Char) : List (List Char) :=
  match l.dropWhile (fun c => !(c == ' ')) with
  | [] => [l.takeWhile (fun c => !(c == ' '))]
  | _ :: post => [l.takeWhile (fun c => !(c == ' ')), post]

/-- Model of `preprocess_text` (src/code.py, lines 14-37), parameterised by
the stopword set and the lemmatizer (external lexical resources): lowercase,
delete non-word non-space characters, split on whitespace, drop stopwords,
lemmatize each remaining word, rejoin with single spaces. -/
def preprocess_text (stop : List (List Char)) (lemm : List Char → List Char)
    (text : List Char) : List Char :=
  let lowered := toLowerL text
  let stripped := lowered.filter keepChar
  let words := splitWs stripped
  let kept := words.filter (fun w => decide (w ∉ stop))
  List.intercalate [' '] (kept.map lemm)

/-- Spec Normalizer step 1: lowercase the entire string. -/
def lowercaseStep (text : List Char) : List Char :=
  toLowerL text

/-- Spec Normalizer step 2: strip all characters that are not alphanumeric,
underscore or whitespace, replacing them with nothing. -/
def stripPunctStep (text : List Char) : List Char :=
  text.filter keepChar

/-- Spec Normalizer step 3: split on whitespace into tokens, empty tokens
discarded. -/
def tokenizeStep (text : List Char) : List (List Char) :=
  (splitKeepEmpty text).filter (fun t => !t.isEmpty)

/-- Spec Normalizer step 4: remove tokens that are members of the stopword
set. -/
def stopwordStep (stop : List (List Char)) (ws : List (List Char)) :
    List (List Char) :=
  ws.filter (fun w => decide (w ∉ stop))

/-- Spec Normalizer step 5: reduce each remaining token to its base form via
the injected lemmatizer. -/
def lemmatizeStep (lemm : List Char → List Char) (ws : List (List Char)) :
    List (List Char) :=
  ws.map lemm

/-- Spec Normalizer step 6: rejoin surviving tokens with single spaces. -/
def rejoinStep (ws : List (List Char)) : List Char :=
  List.intercalate [' '] ws

/-- The spec's Normalizer: the composition of the six steps in their fixed
order. -/
def normalize_spec (stop : List (List Char)) (lemm : List Char → List Char)
    (text : List Char) : List Char :=
  rejoinStep (lemmatizeStep lemm (stopwordStep stop
    (tokenizeStep (stripPunctStep (lowercaseStep text)))))

/-- The four polarity sub-scores returned by VADER's `polarity_scores`. -/
structure PolarityScores where
  pos : ℚ
  neg : ℚ
  neu : ℚ
  compound : ℚ
deriving DecidableEq

/-- The dictionary returned by `analyze_sentiment`. -/
structure SentimentResult where
  label : String
  compound : ℚ
  pos : ℚ
  neg : ℚ
  neu : ℚ
  subjectivity : ℚ
  subj_label : String
deriving DecidableEq

/-- Model of `analyze_sentiment` (src/code.py, lines 39-76).  The VADER
scorer and the TextBlob subjectivity measure are opaque injected functions;
the classification thresholds are the fixed constants of the code. -/
def analyze_sentiment (vader : List Char → PolarityScores)
    (blobSubjectivity : List Char → ℚ) (text : List Char) : SentimentResult :=
  let scores := vader text
  let compound := scores.compound
  let label :=
    if compound > 5/100 then "Positive"
    else if compound < -(5/100) then "Negative"
    else "Neutral"
  let subjectivity := blobSubjectivity text
  let subj_label := if subjectivity > 1/2 then "Subjective" else "Objective"
  { label := label, compound := compound, pos := scores.pos, neg := scores.neg,
    neu := scores.neu, subjectivity := subjectivity, subj_label := subj_label }

/-- One line of the batch report before formatting: the 1-based original
line number, the stripped line, and its analysis. -/
structure ReportEntry where
  num : Nat
  line : List Char
  analysis : SentimentResult

/-- The loop of `process_batch_file` (src/code.py, lines 96-103):
`for i, line in enumerate(lines, 1)`, strip each line, skip lines that are
empty after stripping, preprocess and analyze the rest. -/
def batchLoop (stop : List (List Char)) (lemm : List Char → List Char)
    (vader : List Char → PolarityScores) (blobSubjectivity : List Char → ℚ) :
    Nat → List (List Char) → List ReportEntry
  | _, [] => []
  | i, raw :: rest =>
    let line := stripStr raw
    if line = [] then batchLoop stop lemm vader blobSubjectivity (i + 1) rest
    else
      { num := i, line := line,
        analysis := analyze_sentiment vader blobSubjectivity
          (preprocess_text stop lemm line) }
        :: batchLoop stop lemm vader blobSubjectivity (i + 1) rest

/-- Two-digit rendering of the fractional part of a fixed-point number. -/
def twoDigits (n : Nat) : List Char :=
  if n < 10 then '0' :: (Nat.repr n).data else (Nat.repr n).data

/-- Rendering of a score with two decimal places, as Python's `:.2f`. -/
def format2 (q : ℚ) : List Char :=
  let sign : List Char := if q < 0 then ['-'] else []
  let cents := (round (|q| * 100) : ℤ).toNat
  sign ++ (Nat.repr (cents / 100)).data ++ ['.'] ++ twoDigits (cents % 100)

/-- The formatted report line
`Line <n>: '<line>' -> Sentiment: <label> (Compound: <c>, Subjectivity: <s>)`. -/
def formatEntry (e : ReportEntry) : List Char :=
  "Line ".data ++ (Nat.repr e.num).data ++ ": '".data ++ e.line
    ++ "' -> Sentiment: ".data ++ e.analysis.label.data
    ++ " (Compound: ".data ++ format2 e.analysis.compound
    ++ ", Subjectivity: ".data ++ e.analysis.subj_label.data ++ [')']

/-- The full content written to `output.txt`: the header line, fifty `=`
characters, a newline, and the report lines joined with newlines. -/
def outputContent (entries : List ReportEntry) : List Char :=
  "Batch Sentiment Analysis Results\n".data ++ List.replicate 50 '='
    ++ ['\n'] ++ List.intercalate ['\n'] (entries.map formatEntry)

/-- Observable outcome of one `process_batch_file` call: the returned
boolean, the content written to `output.txt` (`none` when the file is left
untouched), and the messages printed. -/
structure BatchOutcome where
  success : Bool
  written : Option (List Char)
  messages : List (List Char)

/-- Model of `process_batch_file` (src/code.py, lines 78-114).  The file
system is abstracted by the `file` argument: `none` models
`os.path.isfile(file_path)` being false, `some lines` gives the lines of the
existing file (without their trailing newlines, which `strip` removes
anyway). -/
def process_batch_file (stop : List (List Char)) (lemm : List Char → List Char)
    (vader : List Char → PolarityScores) (blobSubjectivity : List Char → ℚ)
    (path : List Char) (file : Option (List (List Char))) : BatchOutcome :=
  match file with
  | none =>
    { success := false, written := none,
      messages := ["Error: File '".data ++ path ++ "' not found.".data] }
  | some lines =>
    let entries := batchLoop stop lemm vader blobSubjectivity 1 lines
    { success := true,
      written := some (outputContent entries),
      messages := ["Batch processing complete! Results saved to 'output.txt'.".data] }

/-- What one iteration of the interactive loop decides to do with an input
line. -/
inductive LoopAction where
  | quit
  | usage
  | runBatch (path : List Char)
  | promptEmpty
  | analyzeText (text : List Char)
deriving DecidableEq

/-- The dispatch of one iteration of `main` (src/code.py, lines 125-149):
strip the input, recognise `quit` (case-insensitive), recognise the
`batch ` prefix (case-insensitive) and split off the path with
`split(' ', 1)`, re-prompt on empty input, analyze anything else. -/
def dispatch (input : List Char) : LoopAction :=
  let u := stripStr input
  if toLowerL u = "quit".data then LoopAction.quit
  else if "batch ".data.isPrefixOf (toLowerL u) then
    let parts := splitOnce u
    if parts.length < 2 then LoopAction.usage
    else LoopAction.runBatch (parts.getD 1 [])
  else if u = [] then LoopAction.promptEmpty
  else LoopAction.analyzeText u

/-- A lemmatizer used to probe the normalizer: it sends the token `ds` to its
base form `d` and leaves every other token unchanged. -/
def exLemm (w : List Char) : List Char :=
  if w = "ds".data then "d".data else w

theorem charToNat_ofNat_valid {n : Nat} (h : n.isValidChar) : (Char.ofNat n).toNat = n := by
  rw [Char.ofNat, dif_pos h]
  simp [Char.ofNatAux, Char.toNat, UInt32.toNat]

theorem toNat_toLower (c : Char) :
    c.toLower.toNat = if 65 ≤ c.toNat ∧ c.toNat ≤ 90 then c.toNat + 32 else c.toNat := by
  by_cases h : 65 ≤ c.toNat ∧ c.toNat ≤ 90
  · rw [if_pos h]
    show (if c.toNat ≥ 65 ∧ c.toNat ≤ 90 then Char.ofNat (c.toNat + 32) else c).toNat = _
    rw [if_pos ⟨h.1, h.2⟩, charToNat_ofNat_valid (Or.inl (by omega))]
  · rw [if_neg h]
    show (if c.toNat ≥ 65 ∧ c.toNat ≤ 90 then Char.ofNat (c.toNat + 32) else c).toNat = _
    rw [if_neg h]

theorem uint32_le_iff (a b : UInt32) : a ≤ b ↔ a.toNat ≤ b.toNat := by
  rw [UInt32.le_def, BitVec.le_def]
  exact Iff.rfl

theorem isUpper_iff (d : Char) : d.isUpper = true ↔ 65 ≤ d.toNat ∧ d.toNat ≤ 90 := by
  simp only [Char.isUpper, Bool.and_eq_true, decide_eq_true_eq, ge_iff_le]
  rw [uint32_le_iff, uint32_le_iff]
  exact Iff.rfl

theorem toLower_not_isUpper (c : Char) : c.toLower.isUpper = false := by
  have h := toNat_toLower c
  rcases Bool.eq_false_or_eq_true c.toLower.isUpper with hb | hb
  · exfalso
    have := (isUpper_iff c.toLower).mp hb
    split at h <;> omega
  · exact hb

theorem toLower_eq_self_of_not_upper {d : Char} (h : ¬ (65 ≤ d.toNat ∧ d.toNat ≤ 90)) :
    d.toLower = d := by
  show (if d.toNat ≥ 65 ∧ d.toNat ≤ 90 then Char.ofNat (d.toNat + 32) else d) = d
  exact if_neg h

theorem toLower_toLower (c : Char) : c.toLower.toLower = c.toLower := by
  apply toLower_eq_self_of_not_upper
  intro hc
  have h := (isUpper_iff c.toLower).mpr hc
  rw [toLower_not_isUpper c] at h
  cases h

theorem not_space_of_wordChar {c : Char} (h : isWordChar c = true) : isSpaceChar c = false := by
  rcases Bool.eq_false_or_eq_true (isSpaceChar c) with hs | hs
  · exfalso
    simp only [isSpaceChar, Bool.or_eq_true, decide_eq_true_eq] at hs
    rcases hs with ((((h1 | h1) | h1) | h1) | h1) | h1 <;> subst h1 <;>
      exact absurd h (by decide)
  · exact hs

theorem toLower_eq_space_iff (c : Char) : c.toLower = ' ' ↔ c = ' ' := by
  constructor
  · intro h
    have ht := toNat_toLower c
    rw [h] at ht
    have h32 : (' ').toNat = 32 := rfl
    rw [h32] at ht
    split at ht
    · omega
    · have : c.toNat = 32 := by omega
      have hv : c.val = (' ').val := by
        apply UInt32.eq_of_toBitVec_eq
        apply BitVec.eq_of_toNat_eq
        exact this
      exact Char.ext hv
  · intro h
    subst h
    decide

theorem cleanChar_spec {c : Char} (h : cleanChar c = true) :
    isWordChar c = true ∧ c.toLower = c := by
  simpa [cleanChar] using h

theorem splitKeepEmpty_ne_nil (l : List Char) : splitKeepEmpty l ≠ [] := by
  induction l with
  | nil => simp [splitKeepEmpty]
  | cons c l ih =>
    rw [splitKeepEmpty]
    split
    · simp
    · rcases h : splitKeepEmpty l with _ | ⟨w, ws⟩
      · simp
      · simp [h]

theorem splitWsAux_eq_filter (l : List Char) :
    ∀ acc w ws, splitKeepEmpty l = w :: ws →
      splitWsAux l acc = ((acc.reverse ++ w) :: ws).filter (fun t => !t.isEmpty) := by
  induction l with
  | nil =>
    intro acc w ws h
    rw [splitKeepEmpty] at h
    injection h with hw hws
    subst hw
    subst hws
    rcases acc with _ | ⟨a, acc⟩ <;> simp only [splitWsAux]
    · simp [List.filter_cons]
    · simp only [List.append_nil, List.filter_cons, List.filter_nil]
      have hne : (a :: acc).reverse ≠ [] := by simp
      simp [hne]
  | cons c l ih =>
    intro acc w ws h
    rw [splitKeepEmpty] at h
    simp only [splitWsAux]
    obtain ⟨w1, ws1, h1⟩ := List.exists_cons_of_ne_nil (splitKeepEmpty_ne_nil l)
    by_cases hc : isSpaceChar c = true
    · rw [if_pos hc] at h ⊢
      injection h with hw hws
      subst hw
      subst hws
      have hrec := ih [] w1 ws1 h1
      simp only [List.reverse_nil, List.nil_append] at hrec
      rw [← h1] at hrec
      rcases acc with _ | ⟨a, acc⟩
      · rw [hrec]
        simp [List.filter_cons]
      · rw [hrec]
        have hne : (a :: acc).reverse ≠ [] := by simp
        simp only [List.append_nil, List.filter_cons]
        simp [hne]
    · rw [if_neg hc] at h ⊢
      rw [h1] at h
      injection h with hw hws
      subst hw
      subst hws
      have hrec := ih (c :: acc) w1 ws1 h1
      rw [hrec]
      simp [List.append_assoc]

theorem splitWs_eq_filter (l : List Char) :
    splitWs l = (splitKeepEmpty l).filter (fun t => !t.isEmpty) := by
  obtain ⟨w, ws, h⟩ := List.exists_cons_of_ne_nil (splitKeepEmpty_ne_nil l)
  rw [splitWs, splitWsAux_eq_filter l [] w ws h, h]
  simp

theorem splitWsAux_word {t : List Char} (rest acc : List Char)
    (h : ∀ c ∈ t, isSpaceChar c = false) :
    splitWsAux (t ++ rest) acc = splitWsAux rest (t.reverse ++ acc) := by
  induction t generalizing acc with
  | nil => simp
  | cons c t ih =>
    have hc : isSpaceChar c = false := h c (by simp)
    simp only [List.cons_append, splitWsAux, List.append_eq]
    rw [if_neg (by simp [hc])]
    rw [ih (c :: acc) (fun d hd => h d (by simp [hd]))]
    simp [List.append_assoc]

theorem splitWsAux_all_word {t acc : List Char} (h : ∀ c ∈ t, isSpaceChar c = false) :
    splitWsAux t acc = splitWsAux [] (t.reverse ++ acc) := by
  have hw := splitWsAux_word (t := t) [] acc h
  simpa using hw

theorem splitWs_intercalate (ts : List (List Char))
    (h : ∀ w ∈ ts, w ≠ [] ∧ ∀ c ∈ w, isSpaceChar c = false) :
    splitWs (List.intercalate [' '] ts) = ts := by
  induction ts with
  | nil => simp [List.intercalate, splitWs, splitWsAux]
  | cons t ts ih =>
    rcases ts with _ | ⟨t2, ts⟩
    · obtain ⟨hne, hns⟩ := h t (by simp)
      simp only [List.intercalate, List.intersperse_single, List.flatten,
        List.append_nil]
      rw [splitWs, splitWsAux_all_word hns]
      simp only [List.append_nil]
      rcases hz : t.reverse with _ | ⟨b, z⟩
      · exact absurd (List.reverse_eq_nil_iff.mp hz) hne
      · show [(b :: z).reverse] = [t]
        rw [← hz, List.reverse_reverse]
    · have hstep : List.intercalate [' '] (t :: t2 :: ts) =
          t ++ ' ' :: List.intercalate [' '] (t2 :: ts) := by
        simp [List.intercalate, List.flatten]
      obtain ⟨hne, hns⟩ := h t (by simp)
      rw [hstep, splitWs, splitWsAux_word (' ' :: List.intercalate [' '] (t2 :: ts)) [] hns]
      simp only [List.append_nil]
      rcases hz : t.reverse with _ | ⟨b, z⟩
      · exact absurd (List.reverse_eq_nil_iff.mp hz) hne
      · show (b :: z).reverse :: splitWsAux (List.intercalate [' '] (t2 :: ts)) [] =
          t :: t2 :: ts
        rw [← hz, List.reverse_reverse]
        have hr : splitWs (List.intercalate [' '] (t2 :: ts)) = t2 :: ts :=
          ih (fun w hw => h w (by simp [hw]))
        rw [splitWs] at hr
        rw [hr]

theorem splitWsAux_sound {P : Char → Prop} :
    ∀ l acc, (∀ c ∈ acc, P c) → (∀ c ∈ l, isSpaceChar c = false → P c) →
      ∀ w ∈ splitWsAux l acc, w ≠ [] ∧ ∀ c ∈ w, P c := by
  intro l
  induction l with
  | nil =>
    intro acc hacc hl w hw
    rcases acc with _ | ⟨a, acc⟩
    · simp [splitWsAux] at hw
    · simp only [splitWsAux, List.mem_singleton] at hw
      subst hw
      refine ⟨by simp, ?_⟩
      intro c hc
      exact hacc c (List.mem_reverse.mp hc)
  | cons c l ih =>
    intro acc hacc hl w hw
    by_cases hc : isSpaceChar c = true
    · rcases acc with _ | ⟨a, acc⟩
      · rw [show splitWsAux (c :: l) [] = splitWsAux l [] from by
          simp [splitWsAux, hc]] at hw
        exact ih [] (by simp) (fun d hd hnd => hl d (by simp [hd]) hnd) w hw
      · rw [show splitWsAux (c :: l) (a :: acc) = (a :: acc).reverse :: splitWsAux l [] from by
          simp [splitWsAux, hc]] at hw
        rcases List.mem_cons.mp hw with hw1 | hw1
        · subst hw1
          refine ⟨by simp, ?_⟩
          intro d hd
          exact hacc d (List.mem_reverse.mp hd)
        · exact ih [] (by simp) (fun d hd hnd => hl d (by simp [hd]) hnd) w hw1
    · rw [show splitWsAux (c :: l) acc = splitWsAux l (c :: acc) from by
        simp [splitWsAux, hc]] at hw
      refine ih (c :: acc) ?_ (fun d hd hnd => hl d (by simp [hd]) hnd) w hw
      intro d hd
      rcases List.mem_cons.mp hd with h1 | h1
      · subst h1
        exact hl d (by simp) (by simpa using hc)
      · exact hacc d h1

theorem splitWs_sound {P : Char → Prop} (l : List Char)
    (hl : ∀ c ∈ l, isSpaceChar c = false → P c) :
    ∀ w ∈ splitWs l, w ≠ [] ∧ ∀ c ∈ w, P c :=
  splitWsAux_sound l [] (by simp) hl

theorem dropWhile_dropWhile_self {p : Char → Bool} (l : List Char) :
    (l.dropWhile p).dropWhile p = l.dropWhile p := by
  induction l with
  | nil => simp
  | cons a l ih =>
    by_cases h : p a = true
    · simp [List.dropWhile_cons, h, ih]
    · simp [List.dropWhile_cons, h]

theorem dropWhile_head_false {p : Char → Bool} {l r : List Char} {c : Char}
    (h : l.dropWhile p = c :: r) : p c = false := by
  induction l with
  | nil => simp at h
  | cons a l ih =>
    by_cases ha : p a = true
    · rw [List.dropWhile_cons_of_pos ha] at h
      exact ih h
    · rw [List.dropWhile_cons_of_neg ha] at h
      injection h with h1 h2
      subst h1
      simpa using ha

theorem dropWhile_append_last {p : Char → Bool} {c : Char} (hc : p c = false)
    (z : List Char) : (z ++ [c]).dropWhile p = z.dropWhile p ++ [c] := by
  induction z with
  | nil => simp [List.dropWhile_cons, hc]
  | cons a z ih =>
    by_cases h : p a = true
    · simp [List.dropWhile_cons, h, ih]
    · simp [List.dropWhile_cons, h]

theorem stripStr_idem (l : List Char) : stripStr (stripStr l) = stripStr l := by
  rcases hy : l.dropWhile isSpaceChar with _ | ⟨c, r⟩
  · simp [stripStr, hy]
  · have hc : isSpaceChar c = false := dropWhile_head_false hy
    have hm : stripStr l = c :: ((r.reverse).dropWhile isSpaceChar).reverse := by
      rw [stripStr, hy, List.reverse_cons, dropWhile_append_last hc]
      simp
    rw [hm, stripStr, List.dropWhile_cons_of_neg (by simp [hc]), List.reverse_cons,
      List.reverse_reverse, dropWhile_append_last hc, dropWhile_dropWhile_self]
    simp

/-- C4: for every stopword set, lemmatizer and input string, the code's
normalizer `preprocess_text` equals the composition of exactly the spec's six
steps in their fixed order: lowercase the whole string, delete every
character that is not a word character or whitespace, split on whitespace
discarding empty tokens, drop stopword tokens, lemmatize each surviving
token, rejoin with single spaces preserving relative order. -/
theorem normalize_is_step_composition (stop : List (List Char))
    (lemm : List Char → List Char) (text : List Char) :
    preprocess_text stop lemm text = normalize_spec stop lemm text := by
  simp only [preprocess_text, normalize_spec, lowercaseStep, stripPunctStep,
    tokenizeStep, stopwordStep, lemmatizeStep, rejoinStep]
  rw [splitWs_eq_filter]

/-- C1: the sentiment label is determined solely by the compound score with
the fixed strict thresholds: strictly above 0.05 is Positive, strictly below
-0.05 is Negative, everything else (including the boundary values 0.05 and
-0.05 themselves) is Neutral; in particular 0.05 gives Neutral, 0.0501 gives
Positive, -0.05 gives Neutral and -0.0501 gives Negative. -/
theorem sentiment_label_thresholds (vader : List Char → PolarityScores)
    (blobSubjectivity : List Char → ℚ) (text : List Char) :
    ((analyze_sentiment vader blobSubjectivity text).label = "Positive"
        ↔ (vader text).compound > 5/100)
    ∧ ((analyze_sentiment vader blobSubjectivity text).label = "Negative"
        ↔ (vader text).compound < -(5/100))
    ∧ ((analyze_sentiment vader blobSubjectivity text).label = "Neutral"
        ↔ (-(5/100) ≤ (vader text).compound ∧ (vader text).compound ≤ 5/100))
    ∧ (analyze_sentiment (fun _ => ⟨0, 0, 1, 5/100⟩) blobSubjectivity []).label
        = "Neutral"
    ∧ (analyze_sentiment (fun _ => ⟨0, 0, 1, 501/10000⟩) blobSubjectivity []).label
        = "Positive"
    ∧ (analyze_sentiment (fun _ => ⟨0, 0, 1, -(5/100)⟩) blobSubjectivity []).label
        = "Neutral"
    ∧ (analyze_sentiment (fun _ => ⟨0, 0, 1, -(501/10000)⟩) blobSubjectivity []).label
        = "Negative" := by
  refine ⟨?_, ?_, ?_, ?_, ?_, ?_, ?_⟩
  · simp only [analyze_sentiment]
    split_ifs with h1 h2 <;> simp_all <;> try linarith
  · simp only [analyze_sentiment]
    split_ifs with h1 h2 <;> simp_all <;> try linarith
  · simp only [analyze_sentiment]
    split_ifs with h1 h2 <;> simp_all <;> try linarith
  · simp only [analyze_sentiment]
    norm_num
  · simp only [analyze_sentiment]
    norm_num
  · simp only [analyze_sentiment]
    norm_num
  · simp only [analyze_sentiment]
    norm_num

/-- C7: the subjectivity label is Subjective exactly when the subjectivity
score is strictly greater than 0.5 and Objective otherwise; in particular
exactly 0.5 maps to Objective and 0.5001 maps to Subjective. -/
theorem subjectivity_label_threshold (vader : List Char → PolarityScores)
    (blobSubjectivity : List Char → ℚ) (text : List Char) :
    ((analyze_sentiment vader blobSubjectivity text).subj_label = "Subjective"
        ↔ blobSubjectivity text > 1/2)
    ∧ ((analyze_sentiment vader blobSubjectivity text).subj_label = "Objective"
        ↔ blobSubjectivity text ≤ 1/2)
    ∧ (analyze_sentiment vader (fun _ => 1/2) []).subj_label = "Objective"
    ∧ (analyze_sentiment vader (fun _ => 5001/10000) []).subj_label = "Subjective" := by
  refine ⟨?_, ?_, ?_, ?_⟩
  · simp only [analyze_sentiment]
    split_ifs with h1 <;> simp_all
  · simp only [analyze_sentiment]
    split_ifs with h1 <;> simp_all <;> try linarith
  · simp only [analyze_sentiment]
    norm_num
  · simp only [analyze_sentiment]
    norm_num

/-- C6: when the batch runner is given a path that does not reference an
existing file, it returns failure, leaves output.txt untouched, and prints
exactly one message, an error message containing the given path. -/
theorem batch_missing_file (stop : List (List Char)) (lemm : List Char → List Char)
    (vader : List Char → PolarityScores) (blobSubjectivity : List Char → ℚ)
    (path : List Char) :
    (process_batch_file stop lemm vader blobSubjectivity path none).success = false
    ∧ (process_batch_file stop lemm vader blobSubjectivity path none).written = none
    ∧ ∃ msg, (process_batch_file stop lemm vader blobSubjectivity path none).messages
        = [msg] ∧ path <:+: msg := by
  refine ⟨rfl, rfl, "Error: File '".data ++ path ++ "' not found.".data, rfl, ?_⟩
  exact ⟨"Error: File '".data, "' not found.".data, by simp⟩

theorem dispatch_ne_usage (input : List Char) : dispatch input ≠ LoopAction.usage := by
  simp only [dispatch]
  split_ifs with h1 h2 h3 h4 <;> intro h <;> try simp_all
  -- only the usage branch remains: h2 is the batch prefix, h3 the length test
  obtain ⟨t, ht⟩ := h2
  have hsp : ' ' ∈ toLowerL (stripStr input) := by
    rw [← ht]
    exact List.mem_append_left t (by decide)
  obtain ⟨c, hc, hceq⟩ := List.mem_map.mp hsp
  have hc' : c = ' ' := (toLower_eq_space_iff c).mp hceq
  subst hc'
  rcases hd : (stripStr input).dropWhile (fun c => !(c == ' ')) with _ | ⟨a, post⟩
  · have hall := List.dropWhile_eq_nil_iff.mp hd ' ' hc
    simp at hall
  · rw [splitOnce] at h3
    rw [hd] at h3
    simp at h3

/-- C2 (code bug): in the interactive session the input `batch`, with nothing
after the keyword, is not answered with a usage message: it is routed through
the normalize-and-score pipeline as ordinary text, because after stripping it
does not match the `batch ` prefix test, and the usage branch of `main` is
unreachable for every input. -/
theorem batch_without_path_is_analyzed :
    dispatch "batch".data = LoopAction.analyzeText "batch".data := by
  decide

/-- C9: the interactive loop strips leading and trailing whitespace before
command matching: dispatching any input equals dispatching its stripped form;
`quit` surrounded by whitespace in any letter case still quits, an input
whose trimmed form starts with `batch ` still triggers batch processing, and
whitespace-only input re-prompts as empty. -/
theorem dispatch_strips_input :
    (∀ input : List Char, dispatch input = dispatch (stripStr input))
    ∧ dispatch "  QuIt \t".data = LoopAction.quit
    ∧ dispatch " BATCH data.txt ".data = LoopAction.runBatch "data.txt".data
    ∧ dispatch " \t ".data = LoopAction.promptEmpty := by
  refine ⟨?_, by decide, by decide, by decide⟩
  intro input
  simp only [dispatch, stripStr_idem]

theorem batchLoop_map_pairs (stop : List (List Char)) (lemm : List Char → List Char)
    (vader : List Char → PolarityScores) (blobSubjectivity : List Char → ℚ)
    (lines : List (List Char)) :
    ∀ i : Nat,
      (batchLoop stop lemm vader blobSubjectivity i lines).map (fun e => (e.num, e.line))
        = (lines.enumFrom i).filterMap
            (fun p => if stripStr p.2 = [] then none else some (p.1, stripStr p.2)) := by
  induction lines with
  | nil => intro i; simp [batchLoop]
  | cons raw rest ih =>
    intro i
    by_cases h : stripStr raw = []
    · simp [batchLoop, List.enumFrom_cons, h, ih]
    · simp [batchLoop, List.enumFrom_cons, h, ih]

/-- C5: the batch report contains exactly one entry per input line that is
non-empty after trimming, carrying that line's 1-based position in the
original file and its stripped text, in file order (blank lines are skipped
but leave gaps in the numbering); on the 3-line file `I love this!` / blank /
`I hate this.` the report has exactly two entries, numbered 1 and 3. -/
theorem batch_line_numbering (stop : List (List Char)) (lemm : List Char → List Char)
    (vader : List Char → PolarityScores) (blobSubjectivity : List Char → ℚ)
    (lines : List (List Char)) :
    ((batchLoop stop lemm vader blobSubjectivity 1 lines).map
        (fun e => (e.num, e.line))
      = (lines.enumFrom 1).filterMap
          (fun p => if stripStr p.2 = [] then none else some (p.1, stripStr p.2)))
    ∧ (batchLoop stop lemm vader blobSubjectivity 1
        ["I love this!".data, [], "I hate this.".data]).map (fun e => e.num) = [1, 3]
    ∧ (batchLoop stop lemm vader blobSubjectivity 1
        ["I love this!".data, [], "I hate this.".data]).length = 2 := by
  refine ⟨batchLoop_map_pairs stop lemm vader blobSubjectivity lines 1, ?_, ?_⟩
  · have h := batchLoop_map_pairs stop lemm vader blobSubjectivity
      ["I love this!".data, [], "I hate this.".data] 1
    have hnum : (batchLoop stop lemm vader blobSubjectivity 1
        ["I love this!".data, [], "I hate this.".data]).map (fun e => e.num)
        = ((batchLoop stop lemm vader blobSubjectivity 1
            ["I love this!".data, [], "I hate this.".data]).map
              (fun e => (e.num, e.line))).map Prod.fst := by
      simp
    rw [hnum, h]
    decide
  · have h := batchLoop_map_pairs stop lemm vader blobSubjectivity
      ["I love this!".data, [], "I hate this.".data] 1
    have hlen : (batchLoop stop lemm vader blobSubjectivity 1
        ["I love this!".data, [], "I hate this.".data]).length
        = ((batchLoop stop lemm vader blobSubjectivity 1
            ["I love this!".data, [], "I hate this.".data]).map
              (fun e => (e.num, e.line))).length := by
      simp
    rw [hlen, h]
    decide

theorem batchLoop_blank (stop : List (List Char)) (lemm : List Char → List Char)
    (vader : List Char → PolarityScores) (blobSubjectivity : List Char → ℚ)
    (lines : List (List Char)) (h : ∀ raw ∈ lines, stripStr raw = []) :
    ∀ i : Nat, batchLoop stop lemm vader blobSubjectivity i lines = [] := by
  induction lines with
  | nil => intro i; simp [batchLoop]
  | cons raw rest ih =>
    intro i
    have hr : stripStr raw = [] := h raw (by simp)
    simp only [batchLoop, hr, if_pos]
    exact ih (fun r hmem => h r (by simp [hmem])) (i + 1)

/-- C10: for an existing input file whose lines are all empty after trimming,
the batch runner succeeds and overwrites output.txt with a report containing
only the header line and the 50-character `=` separator, and zero Line
entries. -/
theorem batch_all_blank_lines (stop : List (List Char)) (lemm : List Char → List Char)
    (vader : List Char → PolarityScores) (blobSubjectivity : List Char → ℚ)
    (path : List Char) (lines : List (List Char))
    (h : ∀ raw ∈ lines, stripStr raw = []) :
    (process_batch_file stop lemm vader blobSubjectivity path (some lines)).success = true
    ∧ (process_batch_file stop lemm vader blobSubjectivity path (some lines)).written
        = some ("Batch Sentiment Analysis Results\n".data
            ++ List.replicate 50 '=' ++ ['\n']) := by
  have hb := batchLoop_blank stop lemm vader blobSubjectivity lines h 1
  refine ⟨rfl, ?_⟩
  simp [process_batch_file, hb, outputContent, List.intercalate]

/-- Witness for C10 at a concrete two-line blank file. -/
theorem batch_all_blank_lines_witness :
    (process_batch_file [] (fun w => w) (fun _ => ⟨0, 0, 1, 0⟩) (fun _ => 0)
        "in.txt".data (some [[], "  ".data])).success = true
    ∧ (process_batch_file [] (fun w => w) (fun _ => ⟨0, 0, 1, 0⟩) (fun _ => 0)
        "in.txt".data (some [[], "  ".data])).written
      = some ("Batch Sentiment Analysis Results\n".data
          ++ List.replicate 50 '=' ++ ['\n']) :=
  batch_all_blank_lines [] (fun w => w) (fun _ => ⟨0, 0, 1, 0⟩) (fun _ => 0)
    "in.txt".data [[], "  ".data] (by decide)

theorem mem_intersperse {β : Type} (s : β) :
    ∀ (L : List β) (x : β), x ∈ L.intersperse s → x = s ∨ x ∈ L := by
  intro L
  induction L with
  | nil => intro x h; simp at h
  | cons a L ih =>
    intro x h
    rcases L with _ | ⟨b, L⟩
    · simp only [List.intersperse_single] at h
      exact Or.inr h
    · rw [List.intersperse_cons₂] at h
      rcases List.mem_cons.mp h with h1 | h1
      · exact Or.inr (by simp [h1])
      · rcases List.mem_cons.mp h1 with h2 | h2
        · exact Or.inl h2
        · rcases ih x h2 with h3 | h3
          · exact Or.inl h3
          · exact Or.inr (List.mem_cons_of_mem a h3)

theorem mem_intercalate_space {L : List (List Char)} {c : Char}
    (h : c ∈ List.intercalate [' '] L) : c = ' ' ∨ ∃ w ∈ L, c ∈ w := by
  rw [List.intercalate] at h
  obtain ⟨l, hl, hcl⟩ := List.mem_flatten.mp h
  rcases mem_intersperse [' '] L l hl with h1 | h1
  · subst h1
    simp only [List.mem_singleton] at hcl
    exact Or.inl hcl
  · exact Or.inr ⟨l, h1, hcl⟩

theorem cleanChar_not_isUpper {c : Char} (h : cleanChar c = true) : c.isUpper = false := by
  obtain ⟨hw, hl⟩ := cleanChar_spec h
  rw [← hl]
  exact toLower_not_isUpper c

theorem preprocess_tokens_clean (x : List Char) :
    ∀ w ∈ splitWs ((toLowerL x).filter keepChar),
      w ≠ [] ∧ ∀ c ∈ w, cleanChar c = true := by
  apply splitWs_sound
  intro c hc hns
  obtain ⟨hmem, hkeep⟩ := List.mem_filter.mp hc
  obtain ⟨d, hd, hdc⟩ := List.mem_map.mp hmem
  have hword : isWordChar c = true := by
    simp only [keepChar, Bool.or_eq_true] at hkeep
    rcases hkeep with h1 | h1
    · exact h1
    · rw [hns] at h1
      cases h1
  subst hdc
  simp [cleanChar, hword, toLower_toLower]

theorem preprocess_fixed (stop : List (List Char)) (lemm : List Char → List Char)
    (ts : List (List Char))
    (hts : ∀ w ∈ ts, w ≠ [] ∧ ∀ c ∈ w, cleanChar c = true)
    (hstop : ∀ w ∈ ts, w ∉ stop)
    (hfix : ∀ w ∈ ts, lemm w = w) :
    preprocess_text stop lemm (List.intercalate [' '] ts)
      = List.intercalate [' '] ts := by
  have hchar : ∀ c ∈ List.intercalate [' '] ts, c = ' ' ∨ cleanChar c = true := by
    intro c hc
    rcases mem_intercalate_space hc with h1 | ⟨w, hw, hcw⟩
    · exact Or.inl h1
    · exact Or.inr ((hts w hw).2 c hcw)
  have hlow : toLowerL (List.intercalate [' '] ts) = List.intercalate [' '] ts := by
    rw [toLowerL]
    have hfixc : ∀ c ∈ List.intercalate [' '] ts, c.toLower = id c := by
      intro c hc
      rcases hchar c hc with h1 | h1
      · subst h1; decide
      · exact (cleanChar_spec h1).2
    rw [List.map_congr_left hfixc, List.map_id]
  have hkeep : (List.intercalate [' '] ts).filter keepChar
      = List.intercalate [' '] ts := by
    apply List.filter_eq_self.mpr
    intro c hc
    rcases hchar c hc with h1 | h1
    · subst h1; decide
    · simp [keepChar, (cleanChar_spec h1).1]
  have hsplit : splitWs (List.intercalate [' '] ts) = ts := by
    apply splitWs_intercalate
    intro w hw
    obtain ⟨hne, hcl⟩ := hts w hw
    refine ⟨hne, ?_⟩
    intro c hcw
    exact not_space_of_wordChar (cleanChar_spec (hcl c hcw)).1
  have hfs : ts.filter (fun w => decide (w ∉ stop)) = ts := by
    apply List.filter_eq_self.mpr
    intro w hw
    simpa using hstop w hw
  have hmap : ts.map lemm = ts := by
    have hfix2 : ∀ w ∈ ts, lemm w = id w := hfix
    rw [List.map_congr_left hfix2, List.map_id]
  show List.intercalate [' ']
      (((splitWs ((toLowerL (List.intercalate [' '] ts)).filter keepChar)).filter
        (fun w => decide (w ∉ stop))).map lemm) = List.intercalate [' '] ts
  rw [hlow, hkeep, hsplit, hfs, hmap]

/-- C8: under the lemmatizer contract (base forms of nonempty clean tokens
consist of word characters fixed by lowercasing), the output of the
normalizer contains no uppercase characters and no punctuation characters:
every character of it is a word character or a space. -/
theorem normalize_output_clean (stop : List (List Char)) (lemm : List Char → List Char)
    (x : List Char)
    (hlem : ∀ w, w ≠ [] → (∀ c ∈ w, cleanChar c = true) →
      ∀ c ∈ lemm w, cleanChar c = true) :
    ∀ c ∈ preprocess_text stop lemm x,
      c.isUpper = false ∧ (isWordChar c = true ∨ c = ' ') := by
  intro c hc
  have hc' : c ∈ List.intercalate [' ']
      (((splitWs ((toLowerL x).filter keepChar)).filter
        (fun w => decide (w ∉ stop))).map lemm) := hc
  rcases mem_intercalate_space hc' with h1 | ⟨w, hw, hcw⟩
  · subst h1
    exact ⟨by decide, Or.inr rfl⟩
  · obtain ⟨w0, hw0, rfl⟩ := List.mem_map.mp hw
    obtain ⟨hne, hcl⟩ := preprocess_tokens_clean x w0 (List.mem_filter.mp hw0).1
    have hclean : cleanChar c = true := hlem w0 hne hcl c hcw
    exact ⟨cleanChar_not_isUpper hclean, Or.inl (cleanChar_spec hclean).1⟩

/-- Witness for C8: the normalizer output of `Ab!` with the identity
lemmatizer and no stopwords contains the character `a`, and that character
is neither uppercase nor punctuation. -/
theorem normalize_output_clean_witness :
    ('a').isUpper = false ∧ (isWordChar 'a' = true ∨ 'a' = ' ') :=
  normalize_output_clean [] (fun w => w) "Ab!".data
    (fun w hne hcl => hcl) 'a' (by decide)

/-- C3 counterexample: the claim fails as stated.  With the stopword set
containing the lowercase word `d` and a lemmatizer that reduces the token
`ds` to the base form `d` (both respecting the resource contract: lowercase
words, nonempty clean base forms), the text `ds` is lowercase and
punctuation-free, yet normalizing twice differs from normalizing once: the
first pass lemmatizes `ds` to `d`, and the second pass deletes `d` as a
stopword. -/
theorem normalize_not_idempotent :
    ("ds".data.all (fun c => cleanChar c) = true)
    ∧ preprocess_text ["d".data] exLemm (preprocess_text ["d".data] exLemm "ds".data)
      ≠ preprocess_text ["d".data] exLemm "ds".data := by
  refine ⟨by decide, ?_⟩
  decide

/-- C3 (amended): normalize is idempotent on texts that are already
lowercase and punctuation-free, provided the lexical resources satisfy, in
addition to their contract (the lemmatizer maps nonempty clean tokens to
nonempty clean tokens), the two conditions the counterexample shows are
necessary: the lemmatizer is idempotent on clean tokens and never maps a
non-stopword token to a stopword. -/
theorem normalize_idempotent (stop : List (List Char)) (lemm : List Char → List Char)
    (x : List Char)
    (hx : ∀ c ∈ x, c.toLower = c ∧ keepChar c = true)
    (hlem_clean : ∀ w, w ≠ [] → (∀ c ∈ w, cleanChar c = true) →
      lemm w ≠ [] ∧ ∀ c ∈ lemm w, cleanChar c = true)
    (hlem_idem : ∀ w, w ≠ [] → (∀ c ∈ w, cleanChar c = true) →
      lemm (lemm w) = lemm w)
    (hlem_stop : ∀ w, w ≠ [] → (∀ c ∈ w, cleanChar c = true) →
      w ∉ stop → lemm w ∉ stop) :
    preprocess_text stop lemm (preprocess_text stop lemm x)
      = preprocess_text stop lemm x := by
  have hy : preprocess_text stop lemm x = List.intercalate [' ']
      (((splitWs ((toLowerL x).filter keepChar)).filter
        (fun w => decide (w ∉ stop))).map lemm) := rfl
  rw [hy]
  apply preprocess_fixed
  · intro w hw
    obtain ⟨w0, hw0, rfl⟩ := List.mem_map.mp hw
    obtain ⟨hne, hcl⟩ := preprocess_tokens_clean x w0 (List.mem_filter.mp hw0).1
    exact hlem_clean w0 hne hcl
  · intro w hw
    obtain ⟨w0, hw0, rfl⟩ := List.mem_map.mp hw
    have h0 := List.mem_filter.mp hw0
    obtain ⟨hne, hcl⟩ := preprocess_tokens_clean x w0 h0.1
    exact hlem_stop w0 hne hcl (by simpa using h0.2)
  · intro w hw
    obtain ⟨w0, hw0, rfl⟩ := List.mem_map.mp hw
    obtain ⟨hne, hcl⟩ := preprocess_tokens_clean x w0 (List.mem_filter.mp hw0).1
    exact hlem_idem w0 hne hcl

/-- Witness for the amended C3: with the stopword set {the}, the identity
lemmatizer and the lowercase punctuation-free text `hello world`,
normalizing twice equals normalizing once. -/
theorem normalize_idempotent_witness :
    preprocess_text ["the".data] (fun w => w)
        (preprocess_text ["the".data] (fun w => w) "hello world".data)
      = preprocess_text ["the".data] (fun w => w) "hello world".data :=
  normalize_idempotent ["the".data] (fun w => w) "hello world".data
    (by decide) (fun w hne hcl => ⟨hne, hcl⟩) (fun w hne hcl => rfl)
    (fun w hne hcl hst => hst)
